import Mathlib

/-!
Shallow embedding of `src/maxwell_monster_detector.py` (Maxwell Demon Detector).

Bits are modelled as natural numbers (the Python code stores the ints 0/1 in
plain lists), byte sequences as lists of naturals below 256, and floating-point
quantities as real numbers (exact arithmetic).  Each definition mirrors one
Python function of the source; the theorems at the end of the file settle the
specification claims about them.
-/

namespace Maxwell

/-- One byte expanded most-significant-bit first, as in the inner loop
`for i in range(7, -1, -1): out.append((b >> i) & 1)` of `bytes_to_bits`. -/
def byteToBits (b : Nat) : List Nat :=
  (List.range 8).map (fun j => (b >>> (7 - j)) &&& 1)

/-- `bytes_to_bits(data)`: expand every byte MSB-first and concatenate. -/
def bytes_to_bits (data : List Nat) : List Nat :=
  data.flatMap byteToBits

/-- The accumulator step `v = (v << 1) | (bits[i + j] & 1)` of `bits_to_bytes`,
folded over one group of eight bits starting from `v = 0`. -/
def packByte (group : List Nat) : Nat :=
  group.foldl (fun v b => (v <<< 1) ||| (b &&& 1)) 0

/-- `bits_to_bytes(bits)`: empty input gives the empty byte string; otherwise
pad with `(-len(bits)) % 8` zero bits on the right and pack each group of
eight bits MSB-first into one byte. -/
def bits_to_bytes (bits : List Nat) : List Nat :=
  if bits = [] then []
  else
    let pad := (8 - bits.length % 8) % 8
    let bits2 := bits ++ List.replicate pad 0
    (List.range (bits2.length / 8)).map (fun i => packByte ((bits2.drop (8 * i)).take 8))

/-- Models Python `range(0, stop, step)` for positive `step`: the ascending
list `[0, step, 2*step, ...]` of the multiples of `step` below `stop`. -/
def pyRange (stop step : Nat) : List Nat :=
  (List.range ((stop + step - 1) / step)).map (fun i => i * step)

/-- `windows(bits, win, step)`: the generator yields nothing when `win <= 0`
or `step <= 0`, and otherwise yields `(start, bits[start:start+win])` for
`start in range(0, max(0, n - win + 1), step)`. -/
def windows (bits : List Nat) (win step : Int) : List (Nat × List Nat) :=
  if win ≤ 0 ∨ step ≤ 0 then []
  else
    let n := bits.length
    let stop : Nat := ((n : Int) - win + 1).toNat
    (pyRange stop step.toNat).map (fun start => (start, (bits.drop start).take win.toNat))

/-- The `--bits` branch of `load_bits_from_args`: keep only the characters
`'0'`/`'1'` of the argument string and map `'1'` to 1, everything else kept
to 0. -/
def load_bits_from_string (s : List Char) : List Nat :=
  (s.filter (fun ch => ch == '0' || ch == '1')).map (fun ch => if ch == '1' then 1 else 0)

/-- `binary_shannon_entropy(bits)`: `(h, p1)` with `p1 = sum(bits)/n`,
`p0 = 1 - p1` and `h = -p0*log2(p0) - p1*log2(p1)`, each term guarded by a
strict positivity test; the empty list returns `(0, 0)`. -/
noncomputable def binary_shannon_entropy (bits : List Nat) : ℝ × ℝ :=
  if bits.length = 0 then (0, 0)
  else
    let p1 : ℝ := (bits.sum : ℝ) / (bits.length : ℝ)
    let p0 : ℝ := 1 - p1
    ((if 0 < p0 then -(p0 * Real.logb 2 p0) else 0)
      + (if 0 < p1 then -(p1 * Real.logb 2 p1) else 0), p1)

/-- The aligned pairs `(bits[i], bits[i+lag])`, `i in range(n - lag)`, counted
by the loop of `mutual_information_lag`. -/
def miPairs (bits : List Nat) (lag : Nat) : List (Nat × Nat) :=
  (List.range (bits.length - lag)).map (fun i => (bits.getD i 0, bits.getD (i + lag) 0))

/-- `c00`: pairs hitting the branch `a == 0 and b == 0`. -/
def c00 (bits : List Nat) (lag : Nat) : Nat :=
  (miPairs bits lag).countP (fun q => q.1 == 0 && q.2 == 0)

/-- `c01`: pairs hitting the branch `a == 0 and b == 1`. -/
def c01 (bits : List Nat) (lag : Nat) : Nat :=
  (miPairs bits lag).countP (fun q => q.1 == 0 && q.2 == 1)

/-- `c10`: pairs hitting the branch `a == 1 and b == 0`. -/
def c10 (bits : List Nat) (lag : Nat) : Nat :=
  (miPairs bits lag).countP (fun q => q.1 == 1 && q.2 == 0)

/-- `c11`: pairs hitting the final `else` branch. -/
def c11 (bits : List Nat) (lag : Nat) : Nat :=
  (miPairs bits lag).countP
    (fun q => !(q.1 == 0 && q.2 == 0) && !(q.1 == 0 && q.2 == 1) && !(q.1 == 1 && q.2 == 0))

/-- The guarded summand `term(pxy, px, py)` of `mutual_information_lag`:
`0` when any of the three probabilities is `<= 0`, else
`pxy * log2(pxy / (px * py))`. -/
noncomputable def miTerm (pxy px py : ℝ) : ℝ :=
  if pxy ≤ 0 ∨ px ≤ 0 ∨ py ≤ 0 then 0 else pxy * Real.logb 2 (pxy / (px * py))

/-- `mutual_information_lag(bits, lag)`: `0` when `lag <= 0` or
`len(bits) <= lag`; otherwise the four-term sum over the joint/marginal
probabilities obtained from the 2x2 contingency counts over the
`m = n - lag` aligned pairs. -/
noncomputable def mutual_information_lag (bits : List Nat) (lag : Int) : ℝ :=
  if lag ≤ 0 ∨ (bits.length : Int) ≤ lag then 0
  else
    let k := lag.toNat
    let m : ℝ := ((bits.length - k : Nat) : ℝ)
    miTerm ((c00 bits k : ℝ) / m) (((c00 bits k + c01 bits k : Nat) : ℝ) / m)
        (((c00 bits k + c10 bits k : Nat) : ℝ) / m)
      + miTerm ((c01 bits k : ℝ) / m) (((c00 bits k + c01 bits k : Nat) : ℝ) / m)
        (((c01 bits k + c11 bits k : Nat) : ℝ) / m)
      + miTerm ((c10 bits k : ℝ) / m) (((c10 bits k + c11 bits k : Nat) : ℝ) / m)
        (((c00 bits k + c10 bits k : Nat) : ℝ) / m)
      + miTerm ((c11 bits k : ℝ) / m) (((c10 bits k + c11 bits k : Nat) : ℝ) / m)
        (((c01 bits k + c11 bits k : Nat) : ℝ) / m)

/-- Models Python `statistics.mean`: the arithmetic mean.  (The Python
function raises `StatisticsError` on empty data; `scan` below reports that
case as an error before this is evaluated.) -/
noncomputable def statistics_mean (xs : List ℝ) : ℝ := xs.sum / xs.length

/-- Models Python `statistics.pstdev`: square root of the population
variance, computed as in CPython from the mean-centred sum of squares
together with its rounding-correction term `(sum of deviations)^2 / n`
(identically zero in exact arithmetic). -/
noncomputable def statistics_pstdev (xs : List ℝ) : ℝ :=
  Real.sqrt (((xs.map (fun x => (x - statistics_mean xs) ^ 2)).sum
    - ((xs.map (fun x => x - statistics_mean xs)).sum) ^ 2 / xs.length) / xs.length)

/-- The per-window record collected by the first pass of `main`:
`(start, start + window, h, p1, mi, cr)`. -/
structure FirstPass where
  start : Nat
  endBit : Int
  h : ℝ
  p1 : ℝ
  mi : List ℝ
  cr : ℝ

/-- One output row of `main`: the first-pass fields plus `zscore` and the
boolean `flagged`. -/
structure Row where
  start : Nat
  endBit : Int
  h : ℝ
  p1 : ℝ
  zscore : ℝ
  mi : List ℝ
  cr : ℝ
  flagged : Prop

/-- `compress_ratio_bytes(payload)`: `1.0` for the empty payload, else
compressed length over raw length.  The external byte compressor
`zlib.compress(., 9)` enters the embedding as the parameter `zlib`. -/
noncomputable def compress_ratio_bytes (zlib : List Nat → List Nat)
    (payload : List Nat) : ℝ :=
  if payload = [] then 1 else ((zlib payload).length : ℝ) / (payload.length : ℝ)

/-- The body of the output loop of `main`:
`zscore = (h - mu) / sd` and
`flagged = (zscore <= -abs(z)) or (cr <= args.cratio)`. -/
noncomputable def makeRow (mu sd z cthr : ℝ) (fp : FirstPass) : Row :=
  { start := fp.start, endBit := fp.endBit, h := fp.h, p1 := fp.p1,
    zscore := (fp.h - mu) / sd, mi := fp.mi, cr := fp.cr,
    flagged := (fp.h - mu) / sd ≤ -|z| ∨ fp.cr ≤ cthr }

/-- The body of the first-pass loop of `main` for one `(start, wbits)` pair:
entropy and `p1`, mutual information for the lags `1..maxlag`, and the
compression ratio of the window repacked into bytes. -/
noncomputable def firstPass (zlib : List Nat → List Nat) (window maxlag : Int)
    (sw : Nat × List Nat) : FirstPass :=
  { start := sw.1, endBit := (sw.1 : Int) + window,
    h := (binary_shannon_entropy sw.2).1,
    p1 := (binary_shannon_entropy sw.2).2,
    mi := (List.range maxlag.toNat).map
      (fun j => mutual_information_lag sw.2 ((j : Int) + 1)),
    cr := compress_ratio_bytes zlib (bits_to_bytes sw.2) }

/-- `mu = statistics.mean(entropies)` over the first-pass records. -/
noncomputable def scanMu (fps : List FirstPass) : ℝ :=
  statistics_mean (fps.map (fun fp => fp.h))

/-- `sd = statistics.pstdev(entropies)`, replaced by `1e-12` exactly when it
is `0.0` (the `if sd == 0.0` branch of `main`). -/
noncomputable def scanSd (fps : List FirstPass) : ℝ :=
  if statistics_pstdev (fps.map (fun fp => fp.h)) = 0 then 1e-12
  else statistics_pstdev (fps.map (fun fp => fp.h))

/-- The second pass / output loop of `main`: one `makeRow` per window, all
sharing the global `mu` and floored `sd`. -/
noncomputable def normalizePass (fps : List FirstPass) (z cthr : ℝ) : List Row :=
  fps.map (makeRow (scanMu fps) (scanSd fps) z cthr)

/-- The ways `main` aborts before writing any output row: the explicit
`SystemExit("Need at least {window} bits, got {n}.")` for a short input, and
the `statistics.StatisticsError` that `statistics.mean` raises on an empty
entropy list (which happens exactly when the window generator yields
nothing, i.e. for a non-positive window or step size). -/
inductive ScanError where
  | needBits (required : Int) (got : Nat)
  | statisticsError

/-- `main` (file loading and CSV formatting aside): validate the input
length, run the first pass over all windows, and fail like
`statistics.mean` does if no window was produced, else emit the rows. -/
noncomputable def scan (zlib : List Nat → List Nat) (bits : List Nat)
    (window step maxlag : Int) (z cthr : ℝ) : Except ScanError (List Row) :=
  if (bits.length : Int) < window then .error (.needBits window bits.length)
  else
    let fps := (windows bits window step).map (firstPass zlib window maxlag)
    if fps.map (fun fp => fp.h) = [] then .error .statisticsError
    else .ok (normalizePass fps z cthr)

/-! ### Lemmas -/

lemma byteToBits_length (b : Nat) : (byteToBits b).length = 8 := by
  simp [byteToBits]

lemma shiftLeft_one_or (v c : Nat) (hc : c < 2) : (v <<< 1) ||| c = 2 * v + c := by
  have hv : v <<< 1 = 2 * v := by rw [Nat.shiftLeft_eq]; ring
  rw [hv]
  interval_cases c
  · exact Nat.or_zero _
  · apply Nat.eq_of_testBit_eq
    intro i
    rw [Nat.testBit_or]
    cases i with
    | zero => simp [Nat.testBit_zero, Nat.mul_add_mod]
    | succ j =>
        rw [Nat.testBit_succ, Nat.testBit_succ, Nat.testBit_succ]
        have h1 : 2 * v / 2 = v := by omega
        have h2 : (2 * v + 1) / 2 = v := by omega
        have h3 : (1 : ℕ) / 2 = 0 := by norm_num
        rw [h1, h2, h3, Nat.zero_testBit, Bool.or_false]

lemma packByte_step (v b : Nat) : (v <<< 1) ||| (b &&& 1) = 2 * v + b % 2 := by
  rw [Nat.and_one_is_mod]
  exact shiftLeft_one_or v (b % 2) (Nat.mod_lt _ (by norm_num))

lemma bytes_to_bits_length (data : List Nat) : (bytes_to_bits data).length = 8 * data.length := by
  induction data with
  | nil => simp [bytes_to_bits]
  | cons b t ih =>
      simp only [bytes_to_bits, List.flatMap_cons] at *
      simp [byteToBits_length, ih]
      ring

lemma bytes_to_bits_cons (b : Nat) (t : List Nat) :
    bytes_to_bits (b :: t) = byteToBits b ++ bytes_to_bits t := by
  simp [bytes_to_bits]

set_option maxRecDepth 4000 in
lemma packByte_byteToBits (b : Nat) (hb : b < 256) : packByte (byteToBits b) = b := by
  revert b
  decide

lemma byteToBits_le_one (b : Nat) : ∀ x ∈ byteToBits b, x ≤ 1 := by
  intro x hx
  simp only [byteToBits, List.mem_map, List.mem_range] at hx
  obtain ⟨j, -, rfl⟩ := hx
  rw [Nat.and_one_is_mod]
  omega

lemma byteToBits_packByte (g : List Nat) (hlen : g.length = 8) (hb : ∀ b ∈ g, b ≤ 1) :
    byteToBits (packByte g) = g := by
  match g with
  | [b0, b1, b2, b3, b4, b5, b6, b7] =>
    have h0 : b0 ≤ 1 := hb b0 (by simp)
    have h1 : b1 ≤ 1 := hb b1 (by simp)
    have h2 : b2 ≤ 1 := hb b2 (by simp)
    have h3 : b3 ≤ 1 := hb b3 (by simp)
    have h4 : b4 ≤ 1 := hb b4 (by simp)
    have h5 : b5 ≤ 1 := hb b5 (by simp)
    have h6 : b6 ≤ 1 := hb b6 (by simp)
    have h7 : b7 ≤ 1 := hb b7 (by simp)
    interval_cases b0 <;> interval_cases b1 <;> interval_cases b2 <;> interval_cases b3 <;>
      interval_cases b4 <;> interval_cases b5 <;> interval_cases b6 <;> interval_cases b7 <;>
      decide

/-- The block of eight bits starting at position `8*i` of the expansion of a
byte list is the expansion of its `i`-th byte. -/
lemma bytes_to_bits_block (d : List Nat) (i : Nat) (hi : i < d.length) :
    ((bytes_to_bits d).drop (8 * i)).take 8 = byteToBits (d.get ⟨i, hi⟩) := by
  induction d generalizing i with
  | nil => simp at hi
  | cons b t ih =>
      cases i with
      | zero =>
          simp only [bytes_to_bits_cons, Nat.mul_zero, List.drop_zero, List.get]
          exact List.take_left' (byteToBits_length b)
      | succ j =>
          have hj : j < t.length := by simpa using hi
          have hdrop : (bytes_to_bits (b :: t)).drop (8 * (j + 1))
              = (bytes_to_bits t).drop (8 * j) := by
            rw [bytes_to_bits_cons]
            have he : 8 * (j + 1) = (byteToBits b).length + 8 * j := by
              rw [byteToBits_length]; ring
            rw [he, List.drop_append]
          rw [hdrop, ih j hj]
          rfl

/-- Concatenating the aligned blocks of eight reconstructs a list whose length
is a multiple of eight. -/
lemma blocks_flatten (m : Nat) : ∀ l : List Nat, l.length = 8 * m →
    (List.range m).flatMap (fun i => (l.drop (8 * i)).take 8) = l := by
  induction m with
  | zero =>
      intro l hl
      simp at hl
      simp [hl]
  | succ k ih =>
      intro l hl
      rw [List.range_succ_eq_map]
      simp only [List.flatMap_cons, Nat.mul_zero, List.drop_zero, List.flatMap_map]
      have htail : ∀ i : Nat, (l.drop (8 * (i + 1))).take 8
          = ((l.drop 8).drop (8 * i)).take 8 := by
        intro i
        rw [List.drop_drop]
        congr 2
        ring
      have hlen8 : (l.drop 8).length = 8 * k := by
        simp [List.length_drop, hl]
        ring_nf
        omega
      calc (l.take 8) ++ (List.range k).flatMap (fun i => (l.drop (8 * (i + 1))).take 8)
      _ = (l.take 8) ++ (List.range k).flatMap (fun i => ((l.drop 8).drop (8 * i)).take 8) := by
            congr 1
            exact List.flatMap_congr (fun i _ => htail i)
      _ = (l.take 8) ++ l.drop 8 := by rw [ih (l.drop 8) hlen8]
      _ = l := List.take_append_drop 8 l

lemma bits_to_bytes_length (bits : List Nat) :
    (bits_to_bytes bits).length = (bits.length + 7) / 8 := by
  by_cases h : bits = []
  · subst h; simp [bits_to_bytes]
  · simp only [bits_to_bytes, if_neg h, List.length_map, List.length_range,
      List.length_append, List.length_replicate]
    omega

lemma bits_to_bytes_bytes_to_bits (d : List Nat) (hd : ∀ b ∈ d, b < 256) :
    bits_to_bytes (bytes_to_bits d) = d := by
  by_cases hnil : d = []
  · subst hnil; rfl
  · have hne : bytes_to_bits d ≠ [] := by
      intro h0
      apply hnil
      have hl := bytes_to_bits_length d
      rw [h0] at hl
      simp at hl
      exact hl
    simp only [bits_to_bytes, if_neg hne, bytes_to_bits_length]
    have hpad : (8 - 8 * d.length % 8) % 8 = 0 := by omega
    rw [hpad]
    simp only [List.replicate_zero, List.append_nil]
    have hm : 8 * d.length / 8 = d.length := by omega
    rw [bytes_to_bits_length, hm]
    apply List.ext_getElem
    · simp
    · intro i hi hi2
      simp only [List.getElem_map, List.getElem_range] at hi ⊢
      have hid : i < d.length := by simpa using hi2
      have hblock := bytes_to_bits_block d i hid
      rw [hblock, packByte_byteToBits _ (hd _ (List.get_mem d i hid))]
      simp

lemma bytes_to_bits_bits_to_bytes (bits : List Nat) (hb : ∀ b ∈ bits, b ≤ 1) :
    bytes_to_bits (bits_to_bytes bits)
      = bits ++ List.replicate ((8 - bits.length % 8) % 8) 0 := by
  by_cases hnil : bits = []
  · subst hnil; rfl
  · simp only [bits_to_bytes, if_neg hnil]
    have hlen2 : (bits ++ List.replicate ((8 - bits.length % 8) % 8) 0).length
        = bits.length + (8 - bits.length % 8) % 8 := by simp
    have hmul : (bits ++ List.replicate ((8 - bits.length % 8) % 8) 0).length
        = 8 * ((bits ++ List.replicate ((8 - bits.length % 8) % 8) 0).length / 8) := by
      rw [hlen2]; omega
    rw [bytes_to_bits, List.flatMap_map]
    have hcong : ∀ i ∈ List.range ((bits ++ List.replicate ((8 - bits.length % 8) % 8) 0).length / 8),
        byteToBits (packByte (((bits ++ List.replicate ((8 - bits.length % 8) % 8) 0).drop (8 * i)).take 8))
          = ((bits ++ List.replicate ((8 - bits.length % 8) % 8) 0).drop (8 * i)).take 8 := by
      intro i hi
      rw [List.mem_range] at hi
      apply byteToBits_packByte
      · rw [List.length_take, List.length_drop]
        omega
      · intro x hx
        have hx2 : x ∈ bits ++ List.replicate ((8 - bits.length % 8) % 8) 0 :=
          List.mem_of_mem_drop (List.mem_of_mem_take hx)
        rcases List.mem_append.mp hx2 with h | h
        · exact hb x h
        · rw [List.eq_of_mem_replicate h]
          norm_num
    rw [List.flatMap_congr hcong]
    exact blocks_flatten _ _ hmul

lemma shiftRight_and_one_eq_testBit (x k : Nat) :
    (x >>> k) &&& 1 = if x.testBit k then 1 else 0 := by
  rw [Nat.and_one_is_mod, Nat.shiftRight_eq_div_pow, Nat.testBit_to_div_mod]
  rcases Nat.mod_two_eq_zero_or_one (x / 2 ^ k) with h | h <;> simp [h]

lemma byteToBits_get (b j : Nat) (hj : j < (byteToBits b).length) :
    (byteToBits b).get ⟨j, hj⟩ = (b >>> (7 - j)) &&& 1 := by
  simp [byteToBits]

/-- Bit `8*i + j` of the expansion of a byte list is bit `7 - j` of byte `i`. -/
lemma bytes_to_bits_get (d : List Nat) (i j : Nat) (hi : i < d.length) (hj : j < 8)
    (hk : 8 * i + j < (bytes_to_bits d).length) :
    (bytes_to_bits d).get ⟨8 * i + j, hk⟩ = ((d.get ⟨i, hi⟩) >>> (7 - j)) &&& 1 := by
  have hblock := bytes_to_bits_block d i hi
  have hd : j < ((bytes_to_bits d).drop (8 * i)).length := by
    rw [List.length_drop, bytes_to_bits_length]
    omega
  have ht : j < (((bytes_to_bits d).drop (8 * i)).take 8).length := by
    rw [List.length_take]
    omega
  have h1 : (bytes_to_bits d).get ⟨8 * i + j, hk⟩
      = ((bytes_to_bits d).drop (8 * i)).get ⟨j, hd⟩ := by
    simp [List.getElem_drop]
  have h2 : ((bytes_to_bits d).drop (8 * i)).get ⟨j, hd⟩
      = (((bytes_to_bits d).drop (8 * i)).take 8).get ⟨j, ht⟩ := by
    simp [List.getElem_take]
  rw [h1, h2]
  have ht2 : j < (byteToBits (d.get ⟨i, hi⟩)).length := by rw [byteToBits_length]; exact hj
  have h3 : (((bytes_to_bits d).drop (8 * i)).take 8).get ⟨j, ht⟩
      = (byteToBits (d.get ⟨i, hi⟩)).get ⟨j, ht2⟩ := by
    simp only [List.get_eq_getElem] at hblock ⊢
    simp only [hblock]
  rw [h3, byteToBits_get]

lemma pyRange_length (stop step : Nat) :
    (pyRange stop step).length = (stop + step - 1) / step := by
  simp [pyRange]

lemma pyRange_get (stop step i : Nat) (hi : i < (pyRange stop step).length) :
    (pyRange stop step).get ⟨i, hi⟩ = i * step := by
  simp [pyRange]

lemma windows_guard (W S : Nat) (hW : 0 < W) (hS : 0 < S) :
    ¬((W : Int) ≤ 0 ∨ (S : Int) ≤ 0) := by
  push_neg
  exact ⟨by exact_mod_cast hW, by exact_mod_cast hS⟩

lemma windows_length (bits : List Nat) (W S : Nat) (hW : 0 < W) (hS : 0 < S) :
    (windows bits (W : Int) (S : Int)).length
      = if bits.length < W then 0 else (bits.length - W) / S + 1 := by
  simp only [windows, if_neg (windows_guard W S hW hS), List.length_map, pyRange_length,
    Int.toNat_natCast]
  have hstop : (((bits.length : Int)) - (W : Int) + 1).toNat = bits.length + 1 - W := by omega
  rw [hstop]
  by_cases h : bits.length < W
  · rw [if_pos h]
    have h0 : bits.length + 1 - W = 0 := by omega
    rw [h0]
    exact Nat.div_eq_of_lt (by omega)
  · rw [if_neg h]
    have h1 : bits.length + 1 - W + S - 1 = bits.length - W + S := by omega
    rw [h1, Nat.add_div_right _ hS]

lemma windows_get (bits : List Nat) (W S i : Nat) (hW : 0 < W) (hS : 0 < S)
    (hi : i < (windows bits (W : Int) (S : Int)).length) :
    (windows bits (W : Int) (S : Int)).get ⟨i, hi⟩
      = (i * S, (bits.drop (i * S)).take W) := by
  simp only [windows, if_neg (windows_guard W S hW hS), Int.toNat_natCast] at hi ⊢
  simp [pyRange, hW.ne', hS.ne']

lemma windows_start_bound (bits : List Nat) (W S i : Nat) (hW : 0 < W) (hS : 0 < S)
    (hi : i < (windows bits (W : Int) (S : Int)).length) :
    i * S + W ≤ bits.length := by
  rw [windows_length bits W S hW hS] at hi
  by_cases h : bits.length < W
  · rw [if_pos h] at hi
    omega
  · rw [if_neg h] at hi
    have hle : i ≤ (bits.length - W) / S := by omega
    have := (Nat.le_div_iff_mul_le hS).mp hle
    omega

lemma sum_eq_count_one (bits : List Nat) (hb : ∀ b ∈ bits, b ≤ 1) :
    bits.sum = bits.count 1 := by
  induction bits with
  | nil => rfl
  | cons b t ih =>
      have hbt : ∀ x ∈ t, x ≤ 1 := fun x hx => hb x (List.mem_cons_of_mem b hx)
      have hb1 : b ≤ 1 := hb b (List.mem_cons_self b t)
      rw [List.sum_cons, ih hbt, List.count_cons]
      interval_cases b <;> simp <;> omega

lemma sum_le_length (bits : List Nat) (hb : ∀ b ∈ bits, b ≤ 1) :
    bits.sum ≤ bits.length := by
  rw [sum_eq_count_one bits hb]
  exact List.count_le_length 1 bits

lemma entropy_term_nonneg {p : ℝ} (h1 : p ≤ 1) :
    0 ≤ (if 0 < p then -(p * Real.logb 2 p) else 0) := by
  by_cases hp : 0 < p
  · rw [if_pos hp]
    have hlog : Real.logb 2 p ≤ 0 := Real.logb_nonpos (by norm_num) hp.le h1
    nlinarith
  · rw [if_neg hp]

/-- The guarded two-term entropy expression is at most 1 on `[0, 1]`. -/
lemma entropy_expr_le_one {p1 : ℝ} (h0 : 0 ≤ p1) (h1 : p1 ≤ 1) :
    (if 0 < 1 - p1 then -((1 - p1) * Real.logb 2 (1 - p1)) else 0)
      + (if 0 < p1 then -(p1 * Real.logb 2 p1) else 0) ≤ 1 := by
  have hlog2 : (0 : ℝ) < Real.log 2 := Real.log_pos (by norm_num)
  rcases eq_or_lt_of_le h0 with heq | hpos
  · rw [← heq]
    norm_num [Real.logb_one]
  · rcases eq_or_lt_of_le h1 with heq1 | hlt1
    · rw [heq1]
      norm_num [Real.logb_one]
    · rw [if_pos (by linarith), if_pos hpos]
      have hrw : -((1 - p1) * Real.logb 2 (1 - p1)) + -(p1 * Real.logb 2 p1)
          = Real.binEntropy p1 / Real.log 2 := by
        simp only [Real.binEntropy, Real.logb, Real.log_inv]
        field_simp
        ring
      rw [hrw, div_le_one hlog2]
      exact Real.binEntropy_le_log_two

lemma entropy_expr_nonneg {p1 : ℝ} (h0 : 0 ≤ p1) (h1 : p1 ≤ 1) :
    0 ≤ (if 0 < 1 - p1 then -((1 - p1) * Real.logb 2 (1 - p1)) else 0)
      + (if 0 < p1 then -(p1 * Real.logb 2 p1) else 0) := by
  have ha := entropy_term_nonneg (p := 1 - p1) (by linarith)
  have hb := entropy_term_nonneg (p := p1) h1
  linarith

lemma miPairs_length (bits : List Nat) (lag : Nat) :
    (miPairs bits lag).length = bits.length - lag := by
  simp [miPairs]

/-- Every aligned pair falls into exactly one of the four branches, so the
four counts add up to the number of pairs. -/
lemma counts_sum (bits : List Nat) (lag : Nat) :
    c00 bits lag + c01 bits lag + c10 bits lag + c11 bits lag
      = bits.length - lag := by
  rw [← miPairs_length bits lag]
  unfold c00 c01 c10 c11
  generalize miPairs bits lag = l
  induction l with
  | nil => rfl
  | cons q t ih =>
      obtain ⟨a, b⟩ := q
      simp only [List.countP_cons, List.length_cons]
      by_cases ha0 : a = 0 <;> by_cases ha1 : a = 1 <;> by_cases hb0 : b = 0 <;>
        by_cases hb1 : b = 1 <;> simp_all <;> omega

/-- Gibbs-type lower bound for one summand: `term(pxy,px,py)` dominates
`(pxy - px*py) / ln 2` whenever the joint probability is dominated by both
marginals. -/
lemma miTerm_ge (pxy px py : ℝ) (h0 : 0 ≤ pxy) (hx : pxy ≤ px) (hy : pxy ≤ py) :
    (pxy - px * py) / Real.log 2 ≤ miTerm pxy px py := by
  have hlog2 : (0 : ℝ) < Real.log 2 := Real.log_pos (by norm_num)
  rcases eq_or_lt_of_le h0 with heq | hpos
  · rw [miTerm, if_pos (Or.inl (le_of_eq heq.symm))]
    have hq : 0 ≤ px * py := mul_nonneg (le_trans h0 hx) (le_trans h0 hy)
    apply div_nonpos_of_nonpos_of_nonneg _ hlog2.le
    linarith
  · have hpx : 0 < px := lt_of_lt_of_le hpos hx
    have hpy : 0 < py := lt_of_lt_of_le hpos hy
    have hq : 0 < px * py := mul_pos hpx hpy
    rw [miTerm, if_neg (by push_neg; exact ⟨not_le.mp (not_le.mpr hpos),
      not_le.mp (not_le.mpr hpx), not_le.mp (not_le.mpr hpy)⟩)]
    have hx0 : 0 < pxy / (px * py) := div_pos hpos hq
    have hlb := Real.one_sub_inv_le_log_of_pos hx0
    have hinv : (pxy / (px * py))⁻¹ = (px * py) / pxy := inv_div _ _
    rw [hinv] at hlb
    have hfield : pxy * ((px * py) / pxy) = px * py := by
      field_simp
    have hkey : pxy - px * py ≤ pxy * Real.log (pxy / (px * py)) := by
      have hmul := mul_le_mul_of_nonneg_left hlb hpos.le
      calc pxy - px * py = pxy * (1 - (px * py) / pxy) := by
            rw [mul_sub, mul_one, hfield]
      _ ≤ pxy * Real.log (pxy / (px * py)) := hmul
    calc (pxy - px * py) / Real.log 2
        ≤ (pxy * Real.log (pxy / (px * py))) / Real.log 2 :=
          (div_le_div_right hlog2).mpr hkey
      _ = pxy * Real.logb 2 (pxy / (px * py)) := by
          rw [Real.logb]
          ring

/-- Nonnegativity of the four-term sum for any 2x2 contingency table of
counts `a b c d` summing to `m`: the classic Gibbs argument. -/
lemma mi4_nonneg (a b c d : ℕ) (m : ℝ) (hm : 0 < m)
    (hsum : ((a : ℝ) + b + c + d) = m) :
    0 ≤ miTerm ((a : ℝ) / m) (((a : ℝ) + b) / m) (((a : ℝ) + c) / m)
      + miTerm ((b : ℝ) / m) (((a : ℝ) + b) / m) (((b : ℝ) + d) / m)
      + miTerm ((c : ℝ) / m) (((c : ℝ) + d) / m) (((a : ℝ) + c) / m)
      + miTerm ((d : ℝ) / m) (((c : ℝ) + d) / m) (((b : ℝ) + d) / m) := by
  have hlog2 : (0 : ℝ) < Real.log 2 := Real.log_pos (by norm_num)
  have hm0 : m ≠ 0 := hm.ne'
  have ha : (0 : ℝ) ≤ a := Nat.cast_nonneg a
  have hb : (0 : ℝ) ≤ b := Nat.cast_nonneg b
  have hc : (0 : ℝ) ≤ c := Nat.cast_nonneg c
  have hd : (0 : ℝ) ≤ d := Nat.cast_nonneg d
  have dm : ∀ x y : ℝ, x ≤ y → x / m ≤ y / m := fun x y h =>
    (div_le_div_iff_of_pos_right hm).mpr h
  have e1 := miTerm_ge ((a : ℝ) / m) (((a : ℝ) + b) / m) (((a : ℝ) + c) / m)
    (div_nonneg ha hm.le) (dm _ _ (by linarith)) (dm _ _ (by linarith))
  have e2 := miTerm_ge ((b : ℝ) / m) (((a : ℝ) + b) / m) (((b : ℝ) + d) / m)
    (div_nonneg hb hm.le) (dm _ _ (by linarith)) (dm _ _ (by linarith))
  have e3 := miTerm_ge ((c : ℝ) / m) (((c : ℝ) + d) / m) (((a : ℝ) + c) / m)
    (div_nonneg hc hm.le) (dm _ _ (by linarith)) (dm _ _ (by linarith))
  have e4 := miTerm_ge ((d : ℝ) / m) (((c : ℝ) + d) / m) (((b : ℝ) + d) / m)
    (div_nonneg hd hm.le) (dm _ _ (by linarith)) (dm _ _ (by linarith))
  have hz : ((a : ℝ) / m - ((a : ℝ) + b) / m * (((a : ℝ) + c) / m))
      + ((b : ℝ) / m - ((a : ℝ) + b) / m * (((b : ℝ) + d) / m))
      + ((c : ℝ) / m - ((c : ℝ) + d) / m * (((a : ℝ) + c) / m))
      + ((d : ℝ) / m - ((c : ℝ) + d) / m * (((b : ℝ) + d) / m)) = 0 := by
    have hne : (a : ℝ) + b + c + d ≠ 0 := by rw [hsum]; exact hm0
    rw [← hsum]
    field_simp
    ring
  have htot : ((a : ℝ) / m - ((a : ℝ) + b) / m * (((a : ℝ) + c) / m)) / Real.log 2
      + ((b : ℝ) / m - ((a : ℝ) + b) / m * (((b : ℝ) + d) / m)) / Real.log 2
      + ((c : ℝ) / m - ((c : ℝ) + d) / m * (((a : ℝ) + c) / m)) / Real.log 2
      + ((d : ℝ) / m - ((c : ℝ) + d) / m * (((b : ℝ) + d) / m)) / Real.log 2 = 0 := by
    have hsplit : ((a : ℝ) / m - ((a : ℝ) + b) / m * (((a : ℝ) + c) / m)) / Real.log 2
        + ((b : ℝ) / m - ((a : ℝ) + b) / m * (((b : ℝ) + d) / m)) / Real.log 2
        + ((c : ℝ) / m - ((c : ℝ) + d) / m * (((a : ℝ) + c) / m)) / Real.log 2
        + ((d : ℝ) / m - ((c : ℝ) + d) / m * (((b : ℝ) + d) / m)) / Real.log 2
        = (((a : ℝ) / m - ((a : ℝ) + b) / m * (((a : ℝ) + c) / m))
          + ((b : ℝ) / m - ((a : ℝ) + b) / m * (((b : ℝ) + d) / m))
          + ((c : ℝ) / m - ((c : ℝ) + d) / m * (((a : ℝ) + c) / m))
          + ((d : ℝ) / m - ((c : ℝ) + d) / m * (((b : ℝ) + d) / m))) / Real.log 2 := by
      ring
    rw [hsplit, hz, zero_div]
  linarith [e1, e2, e3, e4, htot]

lemma mutual_information_degenerate (bits : List Nat) (lag : Int)
    (h : lag ≤ 0 ∨ (bits.length : Int) ≤ lag) :
    mutual_information_lag bits lag = 0 := by
  simp [mutual_information_lag, h]

lemma mutual_information_nonneg (bits : List Nat) (lag : Int) :
    0 ≤ mutual_information_lag bits lag := by
  by_cases hg : lag ≤ 0 ∨ (bits.length : Int) ≤ lag
  · rw [mutual_information_degenerate bits lag hg]
  · push_neg at hg
    rw [mutual_information_lag, if_neg (by push_neg; exact hg)]
    have hk : lag.toNat < bits.length := by omega
    have hmpos : 0 < bits.length - lag.toNat := by omega
    have hm : (0 : ℝ) < ((bits.length - lag.toNat : ℕ) : ℝ) := by exact_mod_cast hmpos
    have hs := counts_sum bits lag.toNat
    have hsum : ((c00 bits lag.toNat : ℝ) + (c01 bits lag.toNat : ℝ)
        + (c10 bits lag.toNat : ℝ) + (c11 bits lag.toNat : ℝ))
        = ((bits.length - lag.toNat : ℕ) : ℝ) := by exact_mod_cast hs
    have hmain := mi4_nonneg (c00 bits lag.toNat) (c01 bits lag.toNat)
      (c10 bits lag.toNat) (c11 bits lag.toNat) _ hm hsum
    push_cast at hmain ⊢
    exact hmain

lemma countP_replicate (n : Nat) (a : Nat × Nat) (p : Nat × Nat → Bool) :
    (List.replicate n a).countP p = if p a then n else 0 := by
  induction n with
  | zero => simp
  | succ k ih =>
      rw [List.replicate_succ, List.countP_cons, ih]
      by_cases h : p a <;> simp [h]

lemma miPairs_const (bits : List Nat) (k : Nat) (cv : Nat) (hc : ∀ x ∈ bits, x = cv) :
    miPairs bits k = List.replicate (bits.length - k) (cv, cv) := by
  rw [List.eq_replicate_iff]
  refine ⟨miPairs_length bits k, ?_⟩
  intro q hq
  simp only [miPairs, List.mem_map, List.mem_range] at hq
  obtain ⟨i, hi, rfl⟩ := hq
  have hi1 : i < bits.length := by omega
  by_cases hi2 : i + k < bits.length
  · rw [List.getD_eq_getElem bits 0 hi1, List.getD_eq_getElem bits 0 hi2]
    rw [hc _ (List.getElem_mem hi1), hc _ (List.getElem_mem hi2)]
  · exfalso
    omega

/-- For a constant input every pair lands in a single cell of the table, so
the mutual information vanishes at every lag. -/
lemma mutual_information_const (bits : List Nat) (lag : Int) (cv : Nat)
    (hc : ∀ x ∈ bits, x = cv) : mutual_information_lag bits lag = 0 := by
  by_cases hg : lag ≤ 0 ∨ (bits.length : Int) ≤ lag
  · exact mutual_information_degenerate bits lag hg
  · push_neg at hg
    rw [mutual_information_lag, if_neg (by push_neg; exact hg)]
    dsimp only
    have hk : lag.toNat < bits.length := by omega
    have hmpos : 0 < bits.length - lag.toNat := by omega
    have hM : ((bits.length - lag.toNat : ℕ) : ℝ) ≠ 0 := by
      have : (0 : ℝ) < ((bits.length - lag.toNat : ℕ) : ℝ) := by exact_mod_cast hmpos
      exact this.ne'
    have hrep := miPairs_const bits lag.toNat cv hc
    by_cases hcv : cv = 0
    · subst hcv
      have h00 : c00 bits lag.toNat = bits.length - lag.toNat := by
        rw [c00, hrep, countP_replicate]; norm_num
      have h01 : c01 bits lag.toNat = 0 := by
        rw [c01, hrep, countP_replicate]; norm_num
      have h10 : c10 bits lag.toNat = 0 := by
        rw [c10, hrep, countP_replicate]; norm_num
      have h11 : c11 bits lag.toNat = 0 := by
        rw [c11, hrep, countP_replicate]; norm_num
      rw [h00, h01, h10, h11]
      simp only [Nat.add_zero, Nat.zero_add, Nat.cast_zero, zero_div, div_self hM]
      rw [miTerm, if_neg (by norm_num), miTerm, if_pos (Or.inl le_rfl),
        miTerm, if_pos (Or.inl le_rfl), miTerm, if_pos (Or.inl le_rfl)]
      norm_num [Real.logb_one]
    · have h00 : c00 bits lag.toNat = 0 := by
        rw [c00, hrep, countP_replicate]; simp [hcv]
      have h01 : c01 bits lag.toNat = 0 := by
        rw [c01, hrep, countP_replicate]; simp [hcv]
      have h10 : c10 bits lag.toNat = 0 := by
        rw [c10, hrep, countP_replicate]; simp [hcv]
      have h11 : c11 bits lag.toNat = bits.length - lag.toNat := by
        rw [c11, hrep, countP_replicate]; simp [hcv]
      rw [h00, h01, h10, h11]
      simp only [Nat.add_zero, Nat.zero_add, Nat.cast_zero, zero_div, div_self hM]
      rw [miTerm, if_pos (Or.inl le_rfl), miTerm, if_pos (Or.inl le_rfl),
        miTerm, if_pos (Or.inl le_rfl), miTerm, if_neg (by norm_num)]
      norm_num [Real.logb_one]

lemma sum_map_sub (xs : List ℝ) (c : ℝ) :
    (xs.map (fun x => x - c)).sum = xs.sum - xs.length * c := by
  induction xs with
  | nil => simp
  | cons y t ih => simp [ih]; ring

lemma sum_map_sub_mean (xs : List ℝ) (h : xs ≠ []) :
    (xs.map (fun x => x - statistics_mean xs)).sum = 0 := by
  rw [sum_map_sub, statistics_mean]
  have hn : (xs.length : ℝ) ≠ 0 := by
    have : xs.length ≠ 0 := fun h0 => h (List.length_eq_zero.mp h0)
    exact_mod_cast this
  field_simp

/-- In exact arithmetic the CPython correction term vanishes and `pstdev` is
the plain population standard deviation. -/
lemma statistics_pstdev_eq (xs : List ℝ) :
    statistics_pstdev xs
      = Real.sqrt ((xs.map (fun x => (x - statistics_mean xs) ^ 2)).sum
          / xs.length) := by
  by_cases h : xs = []
  · subst h
    simp [statistics_pstdev]
  · rw [statistics_pstdev, sum_map_sub_mean xs h]
    norm_num

lemma statistics_pstdev_nonneg (xs : List ℝ) : 0 ≤ statistics_pstdev xs :=
  Real.sqrt_nonneg _

/-- The standard deviation actually used for z-scores is strictly positive:
either `pstdev` itself, or the `1e-12` floor. -/
lemma floored_sd_pos (xs : List ℝ) :
    0 < (if statistics_pstdev xs = 0 then (1e-12 : ℝ) else statistics_pstdev xs) := by
  by_cases h : statistics_pstdev xs = 0
  · rw [if_pos h]
    norm_num
  · rw [if_neg h]
    exact lt_of_le_of_ne (statistics_pstdev_nonneg xs) (Ne.symm h)

lemma scan_short_input (zlib : List Nat → List Nat) (bits : List Nat)
    (window step maxlag : Int) (z cthr : ℝ) (h : (bits.length : Int) < window) :
    scan zlib bits window step maxlag z cthr
      = .error (.needBits window bits.length) := by
  rw [scan, if_pos h]

lemma scan_empty_windows (zlib : List Nat → List Nat) (bits : List Nat)
    (window step maxlag : Int) (z cthr : ℝ)
    (hlen : ¬(bits.length : Int) < window) (h : window ≤ 0 ∨ step ≤ 0) :
    scan zlib bits window step maxlag z cthr = .error .statisticsError := by
  rw [scan, if_neg hlen]
  have hw : windows bits window step = [] := by rw [windows, if_pos h]
  simp [hw]

lemma scan_ok (zlib : List Nat → List Nat) (bits : List Nat)
    (window step maxlag : Int) (z cthr : ℝ)
    (hlen : ¬(bits.length : Int) < window) (hw : windows bits window step ≠ []) :
    scan zlib bits window step maxlag z cthr
      = .ok (normalizePass ((windows bits window step).map
          (firstPass zlib window maxlag)) z cthr) := by
  rw [scan, if_neg hlen]
  have hne : ((windows bits window step).map (firstPass zlib window maxlag)).map
      (fun fp => fp.h) ≠ [] := by
    simp [hw]
  rw [if_neg hne]

lemma windows_ne_nil (bits : List Nat) (window step : Int) (hw : 0 < window)
    (hs : 0 < step) (hlen : window ≤ (bits.length : Int)) :
    windows bits window step ≠ [] := by
  have hW : 0 < window.toNat := by omega
  have hS : 0 < step.toNat := by omega
  have hcast : windows bits window step
      = windows bits ((window.toNat : ℕ) : Int) ((step.toNat : ℕ) : Int) := by
    rw [Int.toNat_of_nonneg hw.le, Int.toNat_of_nonneg hs.le]
  rw [hcast]
  intro hempty
  have hl := windows_length bits window.toNat step.toNat hW hS
  have hnl : ¬bits.length < window.toNat := by omega
  rw [hempty, if_neg hnl] at hl
  simp at hl

/-! ### Claim theorems -/

/-- C7: in exact arithmetic the mutual information computed by
`mutual_information_lag` is nonnegative for every window and every lag. -/
theorem C7_mi_nonneg (bits : List Nat) (lag : Int) :
    0 ≤ mutual_information_lag bits lag :=
  mutual_information_nonneg bits lag

/-- C6: `mutual_information_lag` returns 0 when `lag <= 0` or the window
length is `<= lag`; otherwise it is the four-term sum of
`p(x,y) * log2(p(x,y)/(p(x)*p(y)))` over the `m = W - lag` aligned pairs,
each term omitted when its joint probability is 0 (the guard in `miTerm`);
and for a window of all-identical bits it is exactly 0 at every lag. -/
theorem C6_mutual_information (bits : List Nat) (lag : Int) :
    (lag ≤ 0 ∨ (bits.length : Int) ≤ lag → mutual_information_lag bits lag = 0)
    ∧ (¬(lag ≤ 0 ∨ (bits.length : Int) ≤ lag) →
        (miPairs bits lag.toNat).length = bits.length - lag.toNat
        ∧ mutual_information_lag bits lag
          = miTerm ((c00 bits lag.toNat : ℝ) / ((bits.length - lag.toNat : ℕ) : ℝ))
              (((c00 bits lag.toNat + c01 bits lag.toNat : ℕ) : ℝ)
                / ((bits.length - lag.toNat : ℕ) : ℝ))
              (((c00 bits lag.toNat + c10 bits lag.toNat : ℕ) : ℝ)
                / ((bits.length - lag.toNat : ℕ) : ℝ))
            + miTerm ((c01 bits lag.toNat : ℝ) / ((bits.length - lag.toNat : ℕ) : ℝ))
              (((c00 bits lag.toNat + c01 bits lag.toNat : ℕ) : ℝ)
                / ((bits.length - lag.toNat : ℕ) : ℝ))
              (((c01 bits lag.toNat + c11 bits lag.toNat : ℕ) : ℝ)
                / ((bits.length - lag.toNat : ℕ) : ℝ))
            + miTerm ((c10 bits lag.toNat : ℝ) / ((bits.length - lag.toNat : ℕ) : ℝ))
              (((c10 bits lag.toNat + c11 bits lag.toNat : ℕ) : ℝ)
                / ((bits.length - lag.toNat : ℕ) : ℝ))
              (((c00 bits lag.toNat + c10 bits lag.toNat : ℕ) : ℝ)
                / ((bits.length - lag.toNat : ℕ) : ℝ))
            + miTerm ((c11 bits lag.toNat : ℝ) / ((bits.length - lag.toNat : ℕ) : ℝ))
              (((c10 bits lag.toNat + c11 bits lag.toNat : ℕ) : ℝ)
                / ((bits.length - lag.toNat : ℕ) : ℝ))
              (((c01 bits lag.toNat + c11 bits lag.toNat : ℕ) : ℝ)
                / ((bits.length - lag.toNat : ℕ) : ℝ)))
    ∧ (∀ cv : Nat, (∀ x ∈ bits, x = cv) → mutual_information_lag bits lag = 0) := by
  refine ⟨fun h => mutual_information_degenerate bits lag h, fun h => ?_,
    fun cv hc => mutual_information_const bits lag cv hc⟩
  constructor
  · exact miPairs_length bits lag.toNat
  · rw [mutual_information_lag, if_neg h]

/-- C6 witness: the degenerate lag, the pair count, and the constant-window
case, each at a concrete input. -/
theorem C6_mutual_information_witness :
    mutual_information_lag [0, 1] 0 = 0
    ∧ (miPairs [0, 1] 1).length = 1
    ∧ mutual_information_lag [1, 1] 2 = 0 := by
  refine ⟨(C6_mutual_information [0, 1] 0).1 (by norm_num), ?_,
    (C6_mutual_information [1, 1] 2).2.2 1 (by decide)⟩
  have h := ((C6_mutual_information [0, 1] 1).2.1 (by decide)).1
  simpa using h

/-- C5: for a window of 0/1 bits, `binary_shannon_entropy` returns
`p1 = (number of 1-bits)/W` and the guarded two-term entropy
`h = -p0*log2(p0) - p1*log2(p1)` (a term is omitted exactly when its
probability is 0); `h = 0` and `p1` is exactly 0 or 1 on a constant window;
`h` lies in `[0, 1]`; and the empty window returns `(0, 0)`. -/
theorem C5_entropy (bits : List Nat) (hb : ∀ b ∈ bits, b ≤ 1) :
    (bits.length ≠ 0 →
        (binary_shannon_entropy bits).2 = (bits.count 1 : ℝ) / (bits.length : ℝ))
    ∧ (bits.length ≠ 0 →
        (binary_shannon_entropy bits).1
          = (if 0 < 1 - (binary_shannon_entropy bits).2 then
              -((1 - (binary_shannon_entropy bits).2)
                * Real.logb 2 (1 - (binary_shannon_entropy bits).2)) else 0)
            + (if 0 < (binary_shannon_entropy bits).2 then
              -((binary_shannon_entropy bits).2
                * Real.logb 2 (binary_shannon_entropy bits).2) else 0))
    ∧ ((∀ b ∈ bits, b = 0) ∨ (∀ b ∈ bits, b = 1) →
        (binary_shannon_entropy bits).1 = 0
          ∧ ((binary_shannon_entropy bits).2 = 0 ∨ (binary_shannon_entropy bits).2 = 1))
    ∧ (0 ≤ (binary_shannon_entropy bits).1 ∧ (binary_shannon_entropy bits).1 ≤ 1)
    ∧ (bits.length = 0 → binary_shannon_entropy bits = (0, 0)) := by
  have hp1 : ∀ hne : bits.length ≠ 0,
      (binary_shannon_entropy bits).2 = (bits.sum : ℝ) / (bits.length : ℝ) := by
    intro hne
    rw [binary_shannon_entropy, if_neg hne]
  have hp1bounds : bits.length ≠ 0 →
      0 ≤ (binary_shannon_entropy bits).2 ∧ (binary_shannon_entropy bits).2 ≤ 1 := by
    intro hne
    rw [hp1 hne]
    have hlen : (0 : ℝ) < (bits.length : ℝ) := by
      have : 0 < bits.length := Nat.pos_of_ne_zero hne
      exact_mod_cast this
    constructor
    · positivity
    · rw [div_le_one hlen]
      exact_mod_cast sum_le_length bits hb
  refine ⟨?_, ?_, ?_, ?_, ?_⟩
  · intro hne
    rw [hp1 hne, sum_eq_count_one bits hb]
  · intro hne
    conv_lhs => rw [binary_shannon_entropy, if_neg hne]
    rw [hp1 hne]
  · intro hconst
    by_cases hne : bits.length = 0
    · rw [binary_shannon_entropy, if_pos hne]
      exact ⟨rfl, Or.inl rfl⟩
    · have hlen : (0 : ℝ) < (bits.length : ℝ) := by
        have : 0 < bits.length := Nat.pos_of_ne_zero hne
        exact_mod_cast this
      rcases hconst with h0 | h1
      · have hsum : bits.sum = 0 := by
          rw [List.sum_eq_zero_iff]
          exact h0
        have hp : (binary_shannon_entropy bits).2 = 0 := by
          rw [hp1 hne, hsum]
          simp
        constructor
        · rw [binary_shannon_entropy, if_neg hne]
          dsimp only
          rw [show ((bits.sum : ℝ) / (bits.length : ℝ)) = 0 by rw [hsum]; simp]
          norm_num [Real.logb_one]
        · exact Or.inl hp
      · have hsum : bits.sum = bits.length := by
          have : bits.sum = bits.count 1 := sum_eq_count_one bits hb
          rw [this]
          have : bits.count 1 = bits.length := by
            rw [List.count_eq_length]
            intro b hbmem
            exact ((h1 b hbmem) ▸ rfl)
          exact this
        have hdiv : (bits.sum : ℝ) / (bits.length : ℝ) = 1 := by
          rw [hsum]
          field_simp
        have hp : (binary_shannon_entropy bits).2 = 1 := by
          rw [hp1 hne, hdiv]
        constructor
        · rw [binary_shannon_entropy, if_neg hne]
          dsimp only
          rw [hdiv]
          norm_num [Real.logb_one]
        · exact Or.inr hp
  · by_cases hne : bits.length = 0
    · rw [binary_shannon_entropy, if_pos hne]
      norm_num
    · obtain ⟨hge, hle⟩ := hp1bounds hne
      have hform : (binary_shannon_entropy bits).1
          = (if 0 < 1 - (binary_shannon_entropy bits).2 then
              -((1 - (binary_shannon_entropy bits).2)
                * Real.logb 2 (1 - (binary_shannon_entropy bits).2)) else 0)
            + (if 0 < (binary_shannon_entropy bits).2 then
              -((binary_shannon_entropy bits).2
                * Real.logb 2 (binary_shannon_entropy bits).2) else 0) := by
        conv_lhs => rw [binary_shannon_entropy, if_neg hne]
        rw [hp1 hne]
      rw [hform]
      exact ⟨entropy_expr_nonneg hge hle, entropy_expr_le_one hge hle⟩
  · intro hne
    rw [binary_shannon_entropy, if_pos hne]

/-- C5 witness: the theorem applied to the two-bit window `[0, 1]`. -/
theorem C5_entropy_witness :
    (([0, 1] : List Nat).length ≠ 0 →
        (binary_shannon_entropy [0, 1]).2
          = ((([0, 1] : List Nat).count 1 : ℝ) / ((([0, 1] : List Nat).length : ℕ) : ℝ)))
    ∧ (([0, 1] : List Nat).length ≠ 0 →
        (binary_shannon_entropy [0, 1]).1
          = (if 0 < 1 - (binary_shannon_entropy [0, 1]).2 then
              -((1 - (binary_shannon_entropy [0, 1]).2)
                * Real.logb 2 (1 - (binary_shannon_entropy [0, 1]).2)) else 0)
            + (if 0 < (binary_shannon_entropy [0, 1]).2 then
              -((binary_shannon_entropy [0, 1]).2
                * Real.logb 2 (binary_shannon_entropy [0, 1]).2) else 0))
    ∧ ((∀ b ∈ ([0, 1] : List Nat), b = 0) ∨ (∀ b ∈ ([0, 1] : List Nat), b = 1) →
        (binary_shannon_entropy [0, 1]).1 = 0
          ∧ ((binary_shannon_entropy [0, 1]).2 = 0
            ∨ (binary_shannon_entropy [0, 1]).2 = 1))
    ∧ (0 ≤ (binary_shannon_entropy [0, 1]).1 ∧ (binary_shannon_entropy [0, 1]).1 ≤ 1)
    ∧ (([0, 1] : List Nat).length = 0 → binary_shannon_entropy [0, 1] = (0, 0)) :=
  C5_entropy [0, 1] (by decide)

/-- C1: every row that the output stage produces is flagged exactly when its
entropy z-score is `<= -abs(z)` or its compression ratio is `<= cratio`; a
strictly positive z-score can never satisfy the z-score disjunct, so a
window with abnormally high entropy is not flagged by that test. -/
theorem C1_flag_rule (fps : List FirstPass) (z cthr : ℝ) :
    ∀ r ∈ normalizePass fps z cthr,
      (r.flagged ↔ (r.zscore ≤ -|z| ∨ r.cr ≤ cthr))
        ∧ (0 < r.zscore → ¬(r.zscore ≤ -|z|)) := by
  intro r hr
  simp only [normalizePass, List.mem_map] at hr
  obtain ⟨fp, -, rfl⟩ := hr
  refine ⟨Iff.rfl, ?_⟩
  intro hpos hle
  have hz : -|z| ≤ 0 := neg_nonpos.mpr (abs_nonneg z)
  simp only [makeRow] at hpos hle
  linarith

/-- C1 witness: the flag rule for the single row built from one concrete
first-pass record. -/
theorem C1_flag_rule_witness :
    (((makeRow (scanMu [⟨0, 2, 0, 0, [], 1 / 2⟩]) (scanSd [⟨0, 2, 0, 0, [], 1 / 2⟩])
          3 1 ⟨0, 2, 0, 0, [], 1 / 2⟩).flagged
        ↔ ((makeRow (scanMu [⟨0, 2, 0, 0, [], 1 / 2⟩]) (scanSd [⟨0, 2, 0, 0, [], 1 / 2⟩])
            3 1 ⟨0, 2, 0, 0, [], 1 / 2⟩).zscore ≤ -|(3 : ℝ)|
          ∨ (makeRow (scanMu [⟨0, 2, 0, 0, [], 1 / 2⟩]) (scanSd [⟨0, 2, 0, 0, [], 1 / 2⟩])
            3 1 ⟨0, 2, 0, 0, [], 1 / 2⟩).cr ≤ 1))
      ∧ (0 < (makeRow (scanMu [⟨0, 2, 0, 0, [], 1 / 2⟩]) (scanSd [⟨0, 2, 0, 0, [], 1 / 2⟩])
            3 1 ⟨0, 2, 0, 0, [], 1 / 2⟩).zscore
          → ¬((makeRow (scanMu [⟨0, 2, 0, 0, [], 1 / 2⟩]) (scanSd [⟨0, 2, 0, 0, [], 1 / 2⟩])
            3 1 ⟨0, 2, 0, 0, [], 1 / 2⟩).zscore ≤ -|(3 : ℝ)|))) :=
  C1_flag_rule [⟨0, 2, 0, 0, [], 1 / 2⟩] 3 1 _ (List.mem_singleton.mpr rfl)

/-- C2: `scanMu` is the arithmetic mean of the per-window entropies,
`statistics_pstdev` is the population standard deviation (dividing by the
window count), `scanSd` replaces it by the positive floor `1e-12` exactly
when it is zero (and is always strictly positive), and every output row
carries `zscore = (h - mu) / sd` with that floored `sd`. -/
theorem C2_normalization (fps : List FirstPass) (z cthr : ℝ) :
    scanMu fps = (fps.map (fun fp => fp.h)).sum / ((fps.map (fun fp => fp.h)).length : ℝ)
    ∧ statistics_pstdev (fps.map (fun fp => fp.h))
        = Real.sqrt (((fps.map (fun fp => fp.h)).map (fun x => (x - scanMu fps) ^ 2)).sum
            / ((fps.map (fun fp => fp.h)).length : ℝ))
    ∧ (statistics_pstdev (fps.map (fun fp => fp.h)) = 0 → scanSd fps = 1e-12)
    ∧ (statistics_pstdev (fps.map (fun fp => fp.h)) ≠ 0
        → scanSd fps = statistics_pstdev (fps.map (fun fp => fp.h)))
    ∧ 0 < scanSd fps
    ∧ ∀ r ∈ normalizePass fps z cthr,
        r.zscore = (r.h - scanMu fps) / scanSd fps := by
  refine ⟨rfl, statistics_pstdev_eq _, ?_, ?_, floored_sd_pos _, ?_⟩
  · intro h
    rw [scanSd, if_pos h]
  · intro h
    rw [scanSd, if_neg h]
  · intro r hr
    simp only [normalizePass, List.mem_map] at hr
    obtain ⟨fp, -, rfl⟩ := hr
    rfl

/-- C2 witness: the normalization facts for one concrete first-pass list. -/
theorem C2_normalization_witness :
    scanMu [(⟨0, 2, 0, 0, [], 1 / 2⟩ : FirstPass)]
        = (([(⟨0, 2, 0, 0, [], 1 / 2⟩ : FirstPass)].map (fun fp => fp.h)).sum
            / (([(⟨0, 2, 0, 0, [], 1 / 2⟩ : FirstPass)].map (fun fp => fp.h)).length : ℝ))
    ∧ statistics_pstdev ([(⟨0, 2, 0, 0, [], 1 / 2⟩ : FirstPass)].map (fun fp => fp.h))
        = Real.sqrt ((([(⟨0, 2, 0, 0, [], 1 / 2⟩ : FirstPass)].map (fun fp => fp.h)).map
            (fun x => (x - scanMu [(⟨0, 2, 0, 0, [], 1 / 2⟩ : FirstPass)]) ^ 2)).sum
            / (([(⟨0, 2, 0, 0, [], 1 / 2⟩ : FirstPass)].map (fun fp => fp.h)).length : ℝ))
    ∧ (statistics_pstdev ([(⟨0, 2, 0, 0, [], 1 / 2⟩ : FirstPass)].map (fun fp => fp.h)) = 0
        → scanSd [(⟨0, 2, 0, 0, [], 1 / 2⟩ : FirstPass)] = 1e-12)
    ∧ (statistics_pstdev ([(⟨0, 2, 0, 0, [], 1 / 2⟩ : FirstPass)].map (fun fp => fp.h)) ≠ 0
        → scanSd [(⟨0, 2, 0, 0, [], 1 / 2⟩ : FirstPass)]
            = statistics_pstdev ([(⟨0, 2, 0, 0, [], 1 / 2⟩ : FirstPass)].map (fun fp => fp.h)))
    ∧ 0 < scanSd [(⟨0, 2, 0, 0, [], 1 / 2⟩ : FirstPass)]
    ∧ ∀ r ∈ normalizePass [(⟨0, 2, 0, 0, [], 1 / 2⟩ : FirstPass)] 3 1,
        r.zscore = (r.h - scanMu [(⟨0, 2, 0, 0, [], 1 / 2⟩ : FirstPass)])
          / scanSd [(⟨0, 2, 0, 0, [], 1 / 2⟩ : FirstPass)] :=
  C2_normalization [⟨0, 2, 0, 0, [], 1 / 2⟩] 3 1

/-- C3 counterexample: the claim says a non-positive `maxlag` is a fatal
configuration error producing zero output rows, but with `maxlag = 0` (and a
valid window/step and enough input) the scan succeeds and produces two
rows. -/
theorem C3_counterexample :
    (scan (fun l => l) [0, 0] 1 1 0 3 1).toOption.map List.length = some 2 := by
  rw [scan_ok (fun l => l) [0, 0] 1 1 0 3 1 (by decide) (by decide)]
  simp only [Except.toOption, Option.map_some, normalizePass, List.length_map]
  decide

/-- C3 (amended): an input shorter than one window fails immediately with the
required minimum and the actual bit count and produces no rows; a
non-positive window or step size also aborts fatally before any output (via
the `StatisticsError` that `statistics.mean` raises on the empty entropy
list); but a non-positive `maxlag` is not an error: the scan proceeds
normally and each row merely carries an empty MI column list. -/
theorem C3_amended (zlib : List Nat → List Nat) (bits : List Nat)
    (window step maxlag : Int) (z cthr : ℝ) :
    ((bits.length : Int) < window →
        scan zlib bits window step maxlag z cthr
          = .error (.needBits window bits.length))
    ∧ (¬(bits.length : Int) < window → window ≤ 0 ∨ step ≤ 0 →
        scan zlib bits window step maxlag z cthr = .error .statisticsError)
    ∧ (0 < window → 0 < step → ¬(bits.length : Int) < window →
        scan zlib bits window step maxlag z cthr
          = .ok (normalizePass ((windows bits window step).map
              (firstPass zlib window maxlag)) z cthr))
    ∧ (maxlag ≤ 0 → ∀ sw : Nat × List Nat,
        (firstPass zlib window maxlag sw).mi = []) := by
  refine ⟨scan_short_input zlib bits window step maxlag z cthr,
    scan_empty_windows zlib bits window step maxlag z cthr, ?_, ?_⟩
  · intro hw hs hlen
    exact scan_ok zlib bits window step maxlag z cthr hlen
      (windows_ne_nil bits window step hw hs (by omega))
  · intro hml sw
    have h0 : maxlag.toNat = 0 := by omega
    simp [firstPass, h0]

/-- C3 witness: the three fatal-or-not behaviours at concrete inputs. -/
theorem C3_amended_witness :
    scan (fun l => l) [0] 2 1 1 3 1 = .error (.needBits 2 1)
    ∧ scan (fun l => l) [0] 0 1 1 3 1 = .error .statisticsError
    ∧ scan (fun l => l) [0, 0] 1 1 0 3 1
        = .ok (normalizePass ((windows [0, 0] 1 1).map
            (firstPass (fun l => l) 1 0)) 3 1)
    ∧ (firstPass (fun l => l) 1 0 (0, [0])).mi = [] :=
  ⟨(C3_amended (fun l => l) [0] 2 1 1 3 1).1 (by decide),
    (C3_amended (fun l => l) [0] 0 1 1 3 1).2.1 (by decide) (by decide),
    (C3_amended (fun l => l) [0, 0] 1 1 0 3 1).2.2.1 (by decide) (by decide) (by decide),
    (C3_amended (fun l => l) [0, 0] 1 1 0 3 1).2.2.2 (by decide) (0, [0])⟩

/-- C4: for positive window size `W` and step `S` the iterator yields, in
increasing start order, exactly the pairs `(i*S, bits[i*S : i*S + W])` for
the starts with `start + W <= N` (so every slice is the contiguous `W` bits
at its start and the trailing partial window is dropped), and it yields
nothing when `N < W`. -/
theorem C4_windows (bits : List Nat) (W S : Nat) (hW : 0 < W) (hS : 0 < S) :
    ((windows bits (W : Int) (S : Int)).length
        = if bits.length < W then 0 else (bits.length - W) / S + 1)
    ∧ (∀ i, i < (windows bits (W : Int) (S : Int)).length →
        (windows bits (W : Int) (S : Int))[i]?
            = some (i * S, (bits.drop (i * S)).take W)
          ∧ i * S + W ≤ bits.length
          ∧ ((bits.drop (i * S)).take W).length = W)
    ∧ (bits.length < W → windows bits (W : Int) (S : Int) = []) := by
  refine ⟨windows_length bits W S hW hS, ?_, ?_⟩
  · intro i hi
    have hget := windows_get bits W S i hW hS hi
    have hbound := windows_start_bound bits W S i hW hS hi
    refine ⟨?_, hbound, ?_⟩
    · rw [List.getElem?_eq_getElem hi]
      exact congrArg some (((List.get_eq_getElem _ _).symm).trans hget)
    · rw [List.length_take, List.length_drop]
      omega
  · intro hlt
    have hl := windows_length bits W S hW hS
    rw [if_pos hlt] at hl
    exact List.length_eq_zero.mp hl

/-- C4 witness: the window count and a concrete window of the iterator on a
three-bit input with `W = 2`, `S = 1`. -/
theorem C4_windows_witness :
    (windows [0, 1, 0] (2 : Int) (1 : Int)).length = 2
    ∧ (windows [0, 1, 0] (2 : Int) (1 : Int))[1]? = some (1, [1, 0]) := by
  constructor
  · have h := (C4_windows [0, 1, 0] 2 1 (by decide) (by decide)).1
    simpa using h
  · have h := ((C4_windows [0, 1, 0] 2 1 (by decide) (by decide)).2.1 1 (by decide)).1
    simpa using h

/-- C8: the window bits are packed into exactly `ceil(W/8)` bytes MSB-first
with zero bits padded on the right (unpacking the payload returns the bits
followed by exactly that padding); the empty payload yields ratio exactly 1,
and otherwise the ratio is compressed length over raw length. -/
theorem C8_compressibility (zlib : List Nat → List Nat) (bits : List Nat)
    (hb : ∀ b ∈ bits, b ≤ 1) :
    ((bits_to_bytes bits).length = (bits.length + 7) / 8)
    ∧ bytes_to_bits (bits_to_bytes bits)
        = bits ++ List.replicate ((8 - bits.length % 8) % 8) 0
    ∧ (bits_to_bytes bits = [] →
        compress_ratio_bytes zlib (bits_to_bytes bits) = 1)
    ∧ (bits_to_bytes bits ≠ [] →
        compress_ratio_bytes zlib (bits_to_bytes bits)
          = ((zlib (bits_to_bytes bits)).length : ℝ)
            / ((bits_to_bytes bits).length : ℝ)) := by
  refine ⟨bits_to_bytes_length bits, bytes_to_bits_bits_to_bytes bits hb, ?_, ?_⟩
  · intro h
    rw [compress_ratio_bytes, if_pos h]
  · intro h
    rw [compress_ratio_bytes, if_neg h]

/-- C8 witness: the packing and ratio facts for a three-bit window under an
arbitrary concrete compressor. -/
theorem C8_compressibility_witness :
    ((bits_to_bytes [1, 0, 1]).length = (([1, 0, 1] : List Nat).length + 7) / 8)
    ∧ bytes_to_bits (bits_to_bytes [1, 0, 1])
        = [1, 0, 1] ++ List.replicate ((8 - ([1, 0, 1] : List Nat).length % 8) % 8) 0
    ∧ (bits_to_bytes [1, 0, 1] = [] →
        compress_ratio_bytes (fun l => l) (bits_to_bytes [1, 0, 1]) = 1)
    ∧ (bits_to_bytes [1, 0, 1] ≠ [] →
        compress_ratio_bytes (fun l => l) (bits_to_bytes [1, 0, 1])
          = (((fun l => l) (bits_to_bytes [1, 0, 1])).length : ℝ)
            / ((bits_to_bytes [1, 0, 1]).length : ℝ)) :=
  C8_compressibility (fun l => l) [1, 0, 1] (by decide)

/-- C9: extraction from `B` bytes yields `8*B` bits with bit `8i+j` equal to
bit `7-j` of byte `i` (MSB-first); extraction from a literal string keeps
exactly the 0/1 characters in order, maps a kept `'1'` to 1 and a kept `'0'`
to 0, and has length equal to the number of 0/1 characters. -/
theorem C9_bit_extraction (d : List Nat) (s : List Char) :
    ((bytes_to_bits d).length = 8 * d.length)
    ∧ (∀ i j (hi : i < d.length) (hj : j < 8)
        (hk : 8 * i + j < (bytes_to_bits d).length),
        (bytes_to_bits d).get ⟨8 * i + j, hk⟩
          = if (d.get ⟨i, hi⟩).testBit (7 - j) then 1 else 0)
    ∧ load_bits_from_string s
        = (s.filter (fun ch => ch == '0' || ch == '1')).map
            (fun ch => if ch == '1' then 1 else 0)
    ∧ (load_bits_from_string s).length
        = s.countP (fun ch => ch == '0' || ch == '1')
    ∧ (∀ k (hk1 : k < (s.filter (fun ch => ch == '0' || ch == '1')).length)
        (hk2 : k < (load_bits_from_string s).length),
        ((s.filter (fun ch => ch == '0' || ch == '1')).get ⟨k, hk1⟩ = '1'
            ∧ (load_bits_from_string s).get ⟨k, hk2⟩ = 1)
          ∨ ((s.filter (fun ch => ch == '0' || ch == '1')).get ⟨k, hk1⟩ = '0'
            ∧ (load_bits_from_string s).get ⟨k, hk2⟩ = 0)) := by
  refine ⟨bytes_to_bits_length d, ?_, rfl, ?_, ?_⟩
  · intro i j hi hj hk
    rw [bytes_to_bits_get d i j hi hj hk, shiftRight_and_one_eq_testBit]
  · simp [load_bits_from_string, List.countP_eq_length_filter]
  · intro k hk1 hk2
    have hmem : (s.filter (fun ch => ch == '0' || ch == '1')).get ⟨k, hk1⟩
        ∈ s.filter (fun ch => ch == '0' || ch == '1') :=
      List.get_mem _ k hk1
    have hp := List.of_mem_filter hmem
    have hmap : (load_bits_from_string s).get ⟨k, hk2⟩
        = if ((s.filter (fun ch => ch == '0' || ch == '1')).get ⟨k, hk1⟩) == '1'
          then 1 else 0 := by
      rw [List.get_eq_getElem, List.get_eq_getElem]
      simp [load_bits_from_string, List.getElem_map]
    rcases Bool.or_eq_true_iff.mp hp with h0 | h1
    · right
      have hc : (s.filter (fun ch => ch == '0' || ch == '1')).get ⟨k, hk1⟩ = '0' :=
        beq_iff_eq.mp h0
      refine ⟨hc, ?_⟩
      rw [hmap, hc]
      decide
    · left
      have hc : (s.filter (fun ch => ch == '0' || ch == '1')).get ⟨k, hk1⟩ = '1' :=
        beq_iff_eq.mp h1
      refine ⟨hc, ?_⟩
      rw [hmap, hc]
      decide

/-- C9 witness: byte `165 = 10100101b` and the literal string `"1x0"`. -/
theorem C9_bit_extraction_witness :
    (bytes_to_bits [165]).length = 8 * ([165] : List Nat).length
    ∧ (bytes_to_bits [165]).get ⟨8 * 0 + 2, by decide⟩
        = (if (([165] : List Nat).get ⟨0, by decide⟩).testBit (7 - 2) then 1 else 0)
    ∧ load_bits_from_string ['1', 'x', '0']
        = (['1', 'x', '0'].filter (fun ch => ch == '0' || ch == '1')).map
            (fun ch => if ch == '1' then 1 else 0)
    ∧ (load_bits_from_string ['1', 'x', '0']).length
        = ['1', 'x', '0'].countP (fun ch => ch == '0' || ch == '1')
    ∧ (((['1', 'x', '0'].filter (fun ch => ch == '0' || ch == '1')).get ⟨0, by decide⟩ = '1'
          ∧ (load_bits_from_string ['1', 'x', '0']).get ⟨0, by decide⟩ = 1)
        ∨ ((['1', 'x', '0'].filter (fun ch => ch == '0' || ch == '1')).get ⟨0, by decide⟩ = '0'
          ∧ (load_bits_from_string ['1', 'x', '0']).get ⟨0, by decide⟩ = 0)) :=
  ⟨(C9_bit_extraction [165] ['1', 'x', '0']).1,
    (C9_bit_extraction [165] ['1', 'x', '0']).2.1 0 2 (by decide) (by decide) (by decide),
    (C9_bit_extraction [165] ['1', 'x', '0']).2.2.1,
    (C9_bit_extraction [165] ['1', 'x', '0']).2.2.2.1,
    (C9_bit_extraction [165] ['1', 'x', '0']).2.2.2.2 0 (by decide) (by decide)⟩

/-- C10: packing and extraction are mutually inverse: unpack-then-pack is
the identity on byte sequences, and pack-then-unpack returns the original
bit list followed by the zero bits padding it to the next byte boundary —
exactly the identity when the length is a multiple of 8. -/
theorem C10_roundtrip (d bits : List Nat) (hd : ∀ b ∈ d, b < 256)
    (hb : ∀ b ∈ bits, b ≤ 1) :
    bits_to_bytes (bytes_to_bits d) = d
    ∧ bytes_to_bits (bits_to_bytes bits)
        = bits ++ List.replicate ((8 - bits.length % 8) % 8) 0
    ∧ (8 ∣ bits.length → bytes_to_bits (bits_to_bytes bits) = bits) := by
  refine ⟨bits_to_bytes_bytes_to_bits d hd, bytes_to_bits_bits_to_bytes bits hb, ?_⟩
  intro hdvd
  rw [bytes_to_bits_bits_to_bytes bits hb]
  have hz : (8 - bits.length % 8) % 8 = 0 := by omega
  rw [hz]
  simp

/-- C10 witness: the byte list `[7, 255]` and an eight-bit list. -/
theorem C10_roundtrip_witness :
    bits_to_bytes (bytes_to_bits [7, 255]) = [7, 255]
    ∧ bytes_to_bits (bits_to_bytes [1, 0, 1, 0, 1, 0, 1, 0])
        = [1, 0, 1, 0, 1, 0, 1, 0]
          ++ List.replicate ((8 - ([1, 0, 1, 0, 1, 0, 1, 0] : List Nat).length % 8) % 8) 0
    ∧ (8 ∣ ([1, 0, 1, 0, 1, 0, 1, 0] : List Nat).length →
        bytes_to_bits (bits_to_bytes [1, 0, 1, 0, 1, 0, 1, 0])
          = [1, 0, 1, 0, 1, 0, 1, 0]) :=
  C10_roundtrip [7, 255] [1, 0, 1, 0, 1, 0, 1, 0] (by decide) (by decide)

end Maxwell
